import Mathlib

/-!
Shallow embedding of the portfolio signal / weighting / performance engine of
`src/Analysis/mean_reversion_portfolio.py` (class `MeanReversionPortfolio`).

Conventions of the embedding:
* A return panel (`self.data`, a pandas DataFrame pivoted to index=date,
  columns=ticker) is a `Panel`: a list of ticker names and a list of rows,
  one row per period, each cell an `Option ℚ` (`none` models a pandas `NaN`
  cell, `some r` a float return).  Dates are identified with row positions
  `0, 1, 2, …` (the pandas index is strictly increasing and unique).
* Python floats are modelled as exact rationals `ℚ`.
* A Python dict built by insertion is an association list updated by
  `pyDictSet` (insertion order preserved, updates in place — exactly the
  semantics of a Python `dict`).
* `pandas.Series.sort_values(ascending=False)` places non-NaN values first,
  sorted descending, followed by the NaN entries in input order
  (`na_position="last"`).  For tied non-NaN values the embedding uses the
  stable order (input order); see the development notes on the sort kind.
-/

namespace Momentum

/-- A return panel: `tickers` are the column labels, `rows` the per-period
rows of the pivoted DataFrame, cell `none` modelling a missing (`NaN`)
observation.  Row positions play the role of the datetime index. -/
structure Panel where
  tickers : List String
  rows : List (List (Option ℚ))

/-- Python `int(q)` on a float value: truncation toward zero. -/
def pyInt (q : ℚ) : Int :=
  if q.num < 0 then -((Int.toNat (-q.num)) / q.den : Nat) else ((Int.toNat q.num) / q.den : Nat)

/-- Normalization of one Python slice bound against a list length `L`:
negative indices count from the end, out-of-range bounds are clamped. -/
def pySliceIdx (L : Nat) (i : Int) : Nat :=
  (if i < 0 then max 0 ((L : Int) + i) else min i (L : Int)).toNat

/-- Python list slicing `xs[s:e]` with integer bounds. -/
def pySlice {α : Type} (xs : List α) (s e : Int) : List α :=
  (xs.drop (pySliceIdx xs.length s)).take (pySliceIdx xs.length e - pySliceIdx xs.length s)

/-- Python `d[k] = v` on a dict represented as an association list in key
insertion order: an existing key keeps its position and gets the new value,
a fresh key is appended at the end. -/
def pyDictSet {β : Type} (d : List (String × β)) (k : String) (v : β) : List (String × β) :=
  if (d.map Prod.fst).contains k then d.map (fun p => if p.1 = k then (k, v) else p)
  else d ++ [(k, v)]

/-- Stable insertion (descending by value) used to model the descending sort
of the non-NaN entries of a pandas Series: an element is inserted after all
existing elements whose value is ≥ its own, so equal values keep their
original relative order. -/
def insertDesc (x : String × ℚ) : List (String × ℚ) → List (String × ℚ)
  | [] => [x]
  | y :: ys => if y.2 < x.2 then x :: y :: ys else y :: insertDesc x ys

/-- Stable descending sort by value. -/
def sortDesc (l : List (String × ℚ)) : List (String × ℚ) :=
  l.foldr insertDesc []

/-- Embedding of `row.sort_values(ascending=False)` on a Series with index
`tickers` and values `Option ℚ`: the entries with a value come first, sorted
descending, and the `NaN` entries follow in input order
(pandas `na_position="last"`). -/
def sortRowDesc (pairs : List (String × Option ℚ)) : List (String × Option ℚ) :=
  ((sortDesc (pairs.filterMap (fun p => p.2.map (fun v => (p.1, v))))).map
    (fun p => (p.1, some p.2)))
  ++ pairs.filter (fun p => p.2.isNone)

/-- The per-period weight construction shared verbatim by both allocator
methods (`compute_weights_last_month_direction` and
`compute_weight_momentum_12_minus_1`): slice indices from the normalized
percentile pair, denominator `max(1, end_index - start_index)`, a dict
initialized to `0.0` for every ticker of the sorted row, then the selected
slice set to `1 / amount_of_holdings`.  `l` is the population size the
caller uses (`len(sorted_row)` for mean reversion,
`len(sorted_row.dropna())` for momentum). -/
def selectRow (sortedPairs : List (String × Option ℚ)) (l : Nat) (pctMin pctMax : ℚ) :
    List (String × ℚ) :=
  let start_index : Int := pyInt (pctMin * l / 100)
  let end_index : Int := pyInt (pctMax * l / 100)
  let amount_of_holdings : Int := max 1 (end_index - start_index)
  let ticker_weight : ℚ := 1 / (amount_of_holdings : ℚ)
  let sorted_tickers : List String := sortedPairs.map Prod.fst
  let base := sorted_tickers.foldl (fun d t => pyDictSet d t (0 : ℚ)) []
  let selected_tickers := pySlice sorted_tickers start_index end_index
  selected_tickers.foldl (fun d t => pyDictSet d t ticker_weight) base

/-- Embedding of `compute_weights_last_month_direction`: one weight row per
panel period; the row is sorted by the raw period return descending
(`l = len(sorted_row)`, which counts every ticker, `NaN` signals included).
The emitted table maps each period (row position) to its ticker→weight dict. -/
def compute_weights_last_month_direction (p : Panel) (top_percentile bottom_percentile : ℚ) :
    List (Nat × List (String × ℚ)) :=
  let pct_min := min top_percentile bottom_percentile
  let pct_max := max top_percentile bottom_percentile
  p.rows.enum.map (fun dr =>
    let sorted_row := sortRowDesc (p.tickers.zip dr.2)
    (dr.1, selectRow sorted_row sorted_row.length pct_min pct_max))

/-- Cell access `p.rows[i][j]` flattened: `none` when out of range or `NaN`. -/
def getCell (p : Panel) (i j : Nat) : Option ℚ :=
  ((p.rows.get? i).bind (fun r => r.get? j)).join

/-- Embedding of `self.data.rolling(window=w).sum()` at row `i`, column `j`:
defined only when the window is complete (`w ≤ i+1`) and every cell of the
trailing window is present (pandas `min_periods` defaults to the window
size and counts non-NaN observations). -/
def rolling_sum (p : Panel) (w : Nat) (i j : Nat) : Option ℚ :=
  if w ≤ i + 1 then
    if ((List.range w).map (fun t => getCell p (i + 1 - w + t) j)).all Option.isSome then
      some (((List.range w).map (fun t => getCell p (i + 1 - w + t) j)).filterMap id).sum
    else none
  else none

/-- The 12-minus-1 momentum signal: `twelve_month_return - one_month_return`,
both rolling sums of the panel, `NaN` when either rolling sum is `NaN`. -/
def momentum_signal (p : Panel) (i j : Nat) : Option ℚ :=
  match rolling_sum p 12 i j, rolling_sum p 1 i j with
  | some a, some b => some (a - b)
  | _, _ => none

/-- One row of the momentum signal matrix, aligned with `p.tickers`. -/
def signalRow (p : Panel) (i : Nat) : List (Option ℚ) :=
  (List.range p.tickers.length).map (fun j => momentum_signal p i j)

/-- Embedding of `compute_weight_momentum_12_minus_1`: iterates over the
signal matrix rows, skips rows that are entirely `NaN`
(`row_signal.isnull().all()`) and rows with `l = 0`, sorts by signal
descending, and uses `l = len(sorted_row.dropna())` (the count of tickers
with a signal) for the slice arithmetic. -/
def compute_weight_momentum_12_minus_1 (p : Panel) (top_percentile bottom_percentile : ℚ) :
    List (Nat × List (String × ℚ)) :=
  let pct_min := min top_percentile bottom_percentile
  let pct_max := max top_percentile bottom_percentile
  (List.range p.rows.length).filterMap (fun i =>
    let row_signal := signalRow p i
    if row_signal.all Option.isNone then none
    else
      let sorted_row := sortRowDesc (p.tickers.zip row_signal)
      let l := (sorted_row.filter (fun x => x.2.isSome)).length
      if l = 0 then none
      else some (i, selectRow sorted_row l pct_min pct_max))

/-- The weight row that applies at panel date `d` after
`effective_weights = self.weights.shift(1)`: if `d` is the `idx`-th date of
the weights table with `idx ≥ 1`, the values of row `idx - 1` apply; the
first weights date and dates absent from the weights table get an all-`NaN`
row (`none`). -/
def effectiveWeightRow (W : List (Nat × List (String × ℚ))) (d : Nat) :
    Option (List (String × ℚ)) :=
  match W.findIdx? (fun r => r.1 = d) with
  | some (Nat.succ j) => (W.get? j).map Prod.snd
  | _ => none

/-- The weighted cells of one period of `effective_weights * self.data`:
column alignment by ticker name, a product cell is `NaN` unless both the
return and the (lagged) weight are present. -/
def weightedCells (tickers : List String) (row : List (Option ℚ))
    (wr : Option (List (String × ℚ))) : List (Option ℚ) :=
  (tickers.zip row).map (fun tc =>
    match wr with
    | none => none
    | some w =>
      match tc.2, List.lookup tc.1 w with
      | some r, some wv => some (wv * r)
      | _, _ => none)

/-- Embedding of `DataFrame.sum(axis=1)` on one row with pandas defaults
(`skipna=True`, `min_count=0`): `NaN` cells are skipped and an all-`NaN` row
sums to `0.0`; the result is therefore never `NaN`. -/
def pandasSumSkipna (cells : List (Option ℚ)) : Option ℚ :=
  some (cells.filterMap id).sum

/-- Embedding of `DataFrame.dropna()` on the one-column performance frame:
rows whose value is `NaN` are removed. -/
def dropnaRows (rows : List (Nat × Option ℚ)) : List (Nat × ℚ) :=
  rows.filterMap (fun r => r.2.map (fun v => (r.1, v)))

/-- Prefix sums, the embedding of `Series.cumsum()` on a NaN-free column. -/
def cumsum : List ℚ → List ℚ
  | [] => []
  | x :: xs => x :: (cumsum xs).map (fun y => x + y)

/-- One row of the performance frame produced by
`compute_index_level_and_returns` (the `index_level` column, which involves
`exp`, is defined separately as `index_level_column`). -/
structure PerfRow where
  date : Nat
  portfolio_log_return : ℚ
  cumulative_log_return : ℚ
  deriving DecidableEq

/-- The `portfolio_log_return` column before `dropna()`: one pandas
`sum(axis=1)` value per period of the aligned union index.  The union of the
panel index and the weights index is exactly the panel's row range, because
both allocators emit weight dates that are panel row positions (see the
`dates_lt` lemmas). -/
def portfolio_log_return_column (p : Panel) (W : List (Nat × List (String × ℚ))) :
    List (Nat × Option ℚ) :=
  (List.range p.rows.length).map (fun d =>
    (d, pandasSumSkipna
      (weightedCells p.tickers ((p.rows.get? d).getD []) (effectiveWeightRow W d))))

/-- The summed weighted return of one period (the value the column above
always wraps in `some`, since pandas `sum` never returns `NaN` here). -/
def portfolio_log_return_value (p : Panel) (W : List (Nat × List (String × ℚ)))
    (d : Nat) : ℚ :=
  ((weightedCells p.tickers ((p.rows.get? d).getD []) (effectiveWeightRow W d)).filterMap
    id).sum

/-- Embedding of `compute_index_level_and_returns`: lag the weights by one
row of the weights table, multiply against the panel aligning on
(period, ticker), sum each period across tickers (pandas `sum(axis=1)`),
`dropna()`, then cumulative-sum the portfolio log returns. -/
def compute_index_level_and_returns (p : Panel) (W : List (Nat × List (String × ℚ)))
    (start_index : ℚ := 100) : List PerfRow :=
  let plrs := portfolio_log_return_column p W
  let dropped := dropnaRows plrs
  let cl := cumsum (dropped.map Prod.snd)
  (dropped.zip cl).map (fun x => ⟨x.1.1, x.1.2, x.2⟩)

/-- The `index_level` column:
`index_level = start_index * np.exp(cumulative_log_return)`. -/
noncomputable def index_level_column (start_index : ℚ) (perf : List PerfRow) : List ℝ :=
  perf.map (fun r => (start_index : ℝ) * Real.exp r.cumulative_log_return)

/-- The scenario label `f"Top {top_p}% / Bottom {bottom_p}%"`, built from the
unnormalized pair in the caller's order (the rational's canonical rendering
stands in for Python's float rendering). -/
def mkLabel (top_p bottom_p : ℚ) : String :=
  "Top " ++ toString top_p ++ "% / Bottom " ++ toString bottom_p ++ "%"

/-- Embedding of `construct_performances_for_percentiles`: the prior
contents of `self.percentile_results` are discarded (`= {}`), then for each
requested pair, momentum weights and the performance series
(`start_index=100`) are computed and a copy is stored in the dict under the
label of the unnormalized pair.  The store is the dict in insertion order;
storing a `copy()` is the identity on immutable values. -/
def construct_performances_for_percentiles (p : Panel) (percentiles : List (ℚ × ℚ))
    (priorStore : List (String × List PerfRow)) : List (String × List PerfRow) :=
  let _ := priorStore
  percentiles.foldl (fun store pr =>
    let W := compute_weight_momentum_12_minus_1 p pr.1 pr.2
    let perf := compute_index_level_and_returns p W 100
    pyDictSet store (mkLabel pr.1 pr.2) perf) []

/-! Basic facts about the Python primitives. -/

/- The Batteries rational operations are irreducible by default, which blocks
the kernel-evaluation of concrete instances; restore the default transparency
for this development so that `decide` can evaluate the engine on test panels. -/
attribute [local semireducible] Rat.mul Rat.add Rat.sub Rat.inv Rat.ofScientific

theorem pyInt_of_nonneg (q : ℚ) (hq : 0 ≤ q) :
    pyInt q = ((q.num.toNat / q.den : Nat) : Int) := by
  have hnum : 0 ≤ q.num := Rat.num_nonneg.mpr hq
  unfold pyInt
  rw [if_neg (not_lt.mpr hnum)]

theorem pyInt_nonneg (q : ℚ) (hq : 0 ≤ q) : 0 ≤ pyInt q := by
  rw [pyInt_of_nonneg q hq]
  exact Int.ofNat_nonneg _

theorem pyInt_cast_le (q : ℚ) (hq : 0 ≤ q) : ((pyInt q : ℚ)) ≤ q := by
  have hnum : 0 ≤ q.num := Rat.num_nonneg.mpr hq
  have hbpos : 0 < q.den := q.pos
  have hbQ : (0 : ℚ) < (q.den : ℚ) := by exact_mod_cast hbpos
  rw [pyInt_of_nonneg q hq]
  push_cast
  conv_rhs => rw [← Rat.num_div_den q]
  rw [le_div_iff₀ hbQ]
  have h1 : (q.num.toNat / q.den) * q.den ≤ q.num.toNat := Nat.div_mul_le_self _ _
  have h2 : ((q.num.toNat / q.den : Nat) : ℚ) * (q.den : ℚ) ≤ ((q.num.toNat : Nat) : ℚ) := by
    exact_mod_cast h1
  calc ((q.num.toNat / q.den : Nat) : ℚ) * (q.den : ℚ) ≤ ((q.num.toNat : Nat) : ℚ) := h2
    _ = (q.num : ℚ) := by exact_mod_cast Int.toNat_of_nonneg hnum

theorem lt_pyInt_add_one (q : ℚ) (hq : 0 ≤ q) : q < (pyInt q : ℚ) + 1 := by
  have hnum : 0 ≤ q.num := Rat.num_nonneg.mpr hq
  have hbpos : 0 < q.den := q.pos
  have hbQ : (0 : ℚ) < (q.den : ℚ) := by exact_mod_cast hbpos
  rw [pyInt_of_nonneg q hq]
  have h2 : q.num.toNat < (q.num.toNat / q.den + 1) * q.den := by
    calc q.num.toNat = q.den * (q.num.toNat / q.den) + q.num.toNat % q.den :=
          (Nat.div_add_mod _ _).symm
      _ < q.den * (q.num.toNat / q.den) + q.den :=
          Nat.add_lt_add_left (Nat.mod_lt _ hbpos) _
      _ = (q.num.toNat / q.den + 1) * q.den := by ring
  conv_lhs => rw [← Rat.num_div_den q]
  rw [div_lt_iff₀ hbQ]
  have h3 : ((q.num.toNat : Nat) : ℚ) < ((q.num.toNat / q.den + 1 : Nat) : ℚ) * (q.den : ℚ) := by
    exact_mod_cast h2
  have h4 : ((q.num.toNat : Nat) : ℚ) = (q.num : ℚ) := by
    exact_mod_cast Int.toNat_of_nonneg hnum
  rw [h4] at h3
  calc (q.num : ℚ) < ((q.num.toNat / q.den + 1 : Nat) : ℚ) * (q.den : ℚ) := h3
    _ = (((q.num.toNat / q.den : Nat) : ℚ) + 1) * (q.den : ℚ) := by push_cast; ring

theorem pyInt_mono (q₁ q₂ : ℚ) (h0 : 0 ≤ q₁) (h12 : q₁ ≤ q₂) : pyInt q₁ ≤ pyInt q₂ := by
  have h02 : 0 ≤ q₂ := le_trans h0 h12
  have hlt : ((pyInt q₁ : ℚ)) < (pyInt q₂ : ℚ) + 1 :=
    lt_of_le_of_lt (le_trans (pyInt_cast_le q₁ h0) h12) (lt_pyInt_add_one q₂ h02)
  have hZ : pyInt q₁ < pyInt q₂ + 1 := by exact_mod_cast hlt
  omega

theorem pyInt_le_nat (q : ℚ) (l : Nat) (h0 : 0 ≤ q) (hl : q ≤ (l : ℚ)) :
    pyInt q ≤ (l : Int) := by
  have h1 : ((pyInt q : ℚ)) ≤ (l : ℚ) := le_trans (pyInt_cast_le q h0) hl
  exact_mod_cast h1

theorem pySliceIdx_of_nonneg (L : Nat) (i : Int) (h0 : 0 ≤ i) (hL : i ≤ (L : Int)) :
    pySliceIdx L i = i.toNat := by
  unfold pySliceIdx
  rw [if_neg (not_lt.mpr h0), min_eq_left hL]

theorem pySlice_eq {α : Type} (xs : List α) (s e : Int) (hs : 0 ≤ s) (he : 0 ≤ e)
    (hsL : s ≤ (xs.length : Int)) (heL : e ≤ (xs.length : Int)) :
    pySlice xs s e = (xs.drop s.toNat).take (e.toNat - s.toNat) := by
  unfold pySlice
  rw [pySliceIdx_of_nonneg _ _ hs hsL, pySliceIdx_of_nonneg _ _ he heL]

theorem pySlice_sublist {α : Type} (xs : List α) (s e : Int) :
    (pySlice xs s e).Sublist xs := by
  unfold pySlice
  exact (List.take_sublist _ _).trans (List.drop_sublist _ _)

theorem pySlice_length {α : Type} (xs : List α) (s e : Int) (hs : 0 ≤ s) (hse : s ≤ e)
    (heL : e ≤ (xs.length : Int)) :
    (pySlice xs s e).length = e.toNat - s.toNat := by
  have he : 0 ≤ e := le_trans hs hse
  have hsL : s ≤ (xs.length : Int) := le_trans hse heL
  rw [pySlice_eq xs s e hs he hsL heL, List.length_take, List.length_drop]
  have h1 : e.toNat ≤ xs.length := by omega
  have h2 : s.toNat ≤ e.toNat := by omega
  omega

theorem pySlice_decomp {α : Type} (xs : List α) (s e : Int) (hs : 0 ≤ s) (hse : s ≤ e)
    (heL : e ≤ (xs.length : Int)) :
    xs = xs.take s.toNat ++ pySlice xs s e ++ xs.drop e.toNat := by
  have he : 0 ≤ e := le_trans hs hse
  have hsL : s ≤ (xs.length : Int) := le_trans hse heL
  rw [pySlice_eq xs s e hs he hsL heL]
  have hst : s.toNat ≤ e.toNat := by omega
  have h1 : (xs.drop s.toNat).take (e.toNat - s.toNat) ++
      (xs.drop s.toNat).drop (e.toNat - s.toNat) = xs.drop s.toNat :=
    List.take_append_drop _ _
  calc xs = xs.take s.toNat ++ xs.drop s.toNat := (List.take_append_drop _ _).symm
    _ = xs.take s.toNat ++ ((xs.drop s.toNat).take (e.toNat - s.toNat) ++
          (xs.drop s.toNat).drop (e.toNat - s.toNat)) := by rw [h1]
    _ = xs.take s.toNat ++ (xs.drop s.toNat).take (e.toNat - s.toNat) ++
          xs.drop e.toNat := by
        rw [List.drop_drop]
        have h2 : s.toNat + (e.toNat - s.toNat) = e.toNat := by omega
        rw [h2, List.append_assoc]

theorem pySlice_eq_drop_take {α : Type} (xs : List α) (s e : Int) (hs : 0 ≤ s) (he : 0 ≤ e)
    (hsL : s ≤ (xs.length : Int)) (heL : e ≤ (xs.length : Int)) :
    pySlice xs s e = (xs.take e.toNat).drop s.toNat := by
  rw [pySlice_eq xs s e hs he hsL heL, List.drop_take]

/-! Facts about the Python dict embedding. -/

theorem pyDictSet_of_not_mem {β : Type} (d : List (String × β)) (k : String) (v : β)
    (h : k ∉ d.map Prod.fst) : pyDictSet d k v = d ++ [(k, v)] := by
  unfold pyDictSet
  rw [if_neg]
  simpa using h

theorem pyDictSet_map_of_mem {β : Type} (ts : List String) (g : String → β) (k : String)
    (v : β) (h : k ∈ ts) :
    pyDictSet (ts.map (fun t => (t, g t))) k v =
      ts.map (fun t => (t, if t = k then v else g t)) := by
  unfold pyDictSet
  rw [if_pos]
  · rw [List.map_map]
    refine List.map_congr_left (fun t _ => ?_)
    by_cases ht : t = k
    · subst ht; simp
    · simp [Function.comp, ht]
  · simp only [List.map_map]
    have hid : (Prod.fst ∘ fun t => (t, g t)) = id := by funext t; rfl
    rw [hid, List.map_id]
    simpa using h

theorem foldl_pyDictSet_fresh {α β : Type} (f : α → String) (g : α → β) :
    ∀ (xs : List α) (acc : List (String × β)), (xs.map f).Nodup →
      (∀ x ∈ xs, f x ∉ acc.map Prod.fst) →
      xs.foldl (fun d x => pyDictSet d (f x) (g x)) acc =
        acc ++ xs.map (fun x => (f x, g x))
  | [], acc, _, _ => by simp
  | x :: xs, acc, hnd, hfresh => by
    have hh : (∀ y ∈ xs, ¬ f y = f x) ∧ (List.map f xs).Nodup := by simpa using hnd
    rw [List.foldl_cons, pyDictSet_of_not_mem _ _ _ (hfresh x (by simp))]
    rw [foldl_pyDictSet_fresh f g xs (acc ++ [(f x, g x)]) hh.2
      (by
        intro y hy
        simp only [List.map_append, List.mem_append]
        push_neg
        refine ⟨hfresh y (by simp [hy]), ?_⟩
        simpa using hh.1 y hy)]
    simp

theorem foldl_pyDictSet_update {β : Type} (v : β) :
    ∀ (sel : List String) (ts : List String) (g : String → β), (∀ s ∈ sel, s ∈ ts) →
      sel.foldl (fun d t => pyDictSet d t v) (ts.map (fun t => (t, g t))) =
        ts.map (fun t => (t, if t ∈ sel then v else g t))
  | [], ts, g, _ => by simp
  | s :: sel, ts, g, hsub => by
    rw [List.foldl_cons, pyDictSet_map_of_mem ts g s v (hsub s (by simp))]
    rw [foldl_pyDictSet_update v sel ts (fun t => if t = s then v else g t)
      (fun x hx => hsub x (by simp [hx]))]
    refine List.map_congr_left (fun t _ => ?_)
    by_cases h1 : t ∈ sel
    · simp [h1]
    · by_cases h2 : t = s
      · simp [h1, h2]
      · simp [h1, h2]

theorem lookup_map_of_mem {β : Type} (g : String → β) :
    ∀ (ts : List String) (t : String), t ∈ ts →
      List.lookup t (ts.map (fun s => (s, g s))) = some (g t)
  | [], t, ht => by simp at ht
  | s :: ts, t, ht => by
    by_cases h : t = s
    · subst h
      simp [List.lookup]
    · have ht' : t ∈ ts := by
        rcases List.mem_cons.mp ht with h1 | h1
        · exact absurd h1 h
        · exact h1
      have hbeq : (t == s) = false := beq_eq_false_iff_ne.mpr h
      simp [List.lookup, hbeq, lookup_map_of_mem g ts t ht']

/-! Facts about the descending sort embedding. -/

theorem insertDesc_perm (x : String × ℚ) :
    ∀ (l : List (String × ℚ)), (insertDesc x l).Perm (x :: l)
  | [] => List.Perm.refl _
  | y :: ys => by
    unfold insertDesc
    by_cases h : y.2 < x.2
    · rw [if_pos h]
    · rw [if_neg h]
      exact ((insertDesc_perm x ys).cons y).trans (List.Perm.swap x y ys)

theorem sortDesc_perm : ∀ (l : List (String × ℚ)), (sortDesc l).Perm l
  | [] => List.Perm.refl _
  | x :: xs => by
    unfold sortDesc
    rw [List.foldr_cons]
    exact (insertDesc_perm x _).trans ((sortDesc_perm xs).cons x)

theorem wrap_filterMap (pairs : List (String × Option ℚ)) :
    (pairs.filterMap (fun p => p.2.map (fun v => (p.1, v)))).map (fun p => (p.1, some p.2)) =
      pairs.filter (fun p => p.2.isSome) := by
  induction pairs with
  | nil => rfl
  | cons p rest ih =>
    rcases p with ⟨a, b⟩
    cases b with
    | none => simpa [List.filterMap_cons, List.filter_cons] using ih
    | some v => simpa [List.filterMap_cons, List.filter_cons] using ih

theorem sortRowDesc_perm (pairs : List (String × Option ℚ)) :
    (sortRowDesc pairs).Perm pairs := by
  unfold sortRowDesc
  have h1 : ((sortDesc (pairs.filterMap (fun p => p.2.map (fun v => (p.1, v))))).map
      (fun p => (p.1, some p.2))).Perm (pairs.filter (fun p => p.2.isSome)) := by
    rw [← wrap_filterMap pairs]
    exact (sortDesc_perm _).map _
  have hneg : (fun (p : String × Option ℚ) => p.2.isNone) =
      (fun (p : String × Option ℚ) => !p.2.isSome) := by
    funext p; cases p.2 <;> rfl
  have h2 : (pairs.filter (fun p => p.2.isSome) ++
      pairs.filter (fun p => p.2.isNone)).Perm pairs := by
    rw [hneg]
    exact List.filter_append_perm _ pairs
  exact (h1.append_right _).trans h2

theorem filter_isSome_sortRowDesc (pairs : List (String × Option ℚ)) :
    (sortRowDesc pairs).filter (fun x => x.2.isSome) =
      (sortDesc (pairs.filterMap (fun p => p.2.map (fun v => (p.1, v))))).map
        (fun p => (p.1, some p.2)) := by
  unfold sortRowDesc
  rw [List.filter_append]
  have hA : ((sortDesc (pairs.filterMap (fun p => p.2.map (fun v => (p.1, v))))).map
      (fun p => (p.1, some p.2))).filter (fun x => x.2.isSome) =
      (sortDesc (pairs.filterMap (fun p => p.2.map (fun v => (p.1, v))))).map
        (fun p => (p.1, some p.2)) := by
    refine List.filter_eq_self.mpr (fun x hx => ?_)
    rcases List.mem_map.mp hx with ⟨y, _, rfl⟩
    rfl
  have hB : (pairs.filter (fun p => p.2.isNone)).filter (fun x => x.2.isSome) = [] := by
    refine List.filter_eq_nil.mpr (fun a ha => ?_)
    have := List.of_mem_filter ha
    cases h : a.2
    · simp
    · rw [h] at this; simp at this
  rw [hA, hB, List.append_nil]

/-! The per-row weight dict in closed form, and the row-sum invariant. -/

theorem foldl_pyDictSet_zero (ts : List String) (hnd : ts.Nodup) :
    ts.foldl (fun d t => pyDictSet d t (0 : ℚ)) [] = ts.map (fun t => (t, (0 : ℚ))) := by
  have h := foldl_pyDictSet_fresh id (fun _ => (0 : ℚ)) ts [] (by simpa using hnd) (by simp)
  simpa using h

theorem selectRow_eq_map (sp : List (String × Option ℚ)) (l : Nat) (pmin pmax : ℚ)
    (hnd : (sp.map Prod.fst).Nodup) :
    selectRow sp l pmin pmax =
      (sp.map Prod.fst).map (fun t =>
        (t, if t ∈ pySlice (sp.map Prod.fst) (pyInt (pmin * (l : ℚ) / 100))
              (pyInt (pmax * (l : ℚ) / 100))
            then 1 / ((max 1 (pyInt (pmax * (l : ℚ) / 100) - pyInt (pmin * (l : ℚ) / 100)) : Int) : ℚ)
            else 0)) := by
  simp only [selectRow]
  rw [foldl_pyDictSet_zero (sp.map Prod.fst) hnd]
  rw [foldl_pyDictSet_update _ _ (sp.map Prod.fst) (fun _ => (0 : ℚ))
    (fun s hs => (pySlice_sublist (sp.map Prod.fst) _ _).subset hs)]

theorem sum_map_const (l : List String) (w : ℚ) :
    (l.map (fun _ => w)).sum = l.length * w := by
  induction l with
  | nil => simp
  | cons x xs ih =>
    simp only [List.map_cons, List.sum_cons, List.length_cons]
    rw [ih]
    push_cast
    ring

theorem sum_ite_mem_decomp (A sel B : List String) (w : ℚ)
    (hnd : (A ++ sel ++ B).Nodup) :
    ((A ++ sel ++ B).map (fun t => if t ∈ sel then w else 0)).sum = sel.length * w := by
  rcases List.nodup_append.mp hnd with ⟨hAB, hB, hdisj⟩
  rcases List.nodup_append.mp hAB with ⟨hA, hsel, hdisjA⟩
  rw [List.map_append, List.map_append, List.sum_append, List.sum_append]
  have hsumA : ((A.map (fun t => if t ∈ sel then w else 0))).sum = 0 := by
    refine List.sum_eq_zero (fun x hx => ?_)
    rcases List.mem_map.mp hx with ⟨t, ht, rfl⟩
    exact if_neg (hdisjA ht)
  have hsumB : ((B.map (fun t => if t ∈ sel then w else 0))).sum = 0 := by
    refine List.sum_eq_zero (fun x hx => ?_)
    rcases List.mem_map.mp hx with ⟨t, ht, rfl⟩
    refine if_neg (fun htsel => ?_)
    exact hdisj (List.mem_append_right _ htsel) ht
  have hsumSel : ((sel.map (fun t => if t ∈ sel then w else 0))).sum = sel.length * w := by
    have h1 : sel.map (fun t => if t ∈ sel then w else 0) = sel.map (fun _ => w) :=
      List.map_congr_left (fun t ht => if_pos ht)
    rw [h1, sum_map_const]
  rw [hsumA, hsumB, hsumSel]
  ring

theorem slice_bounds (l L : Nat) (pmin pmax : ℚ) (h0 : 0 ≤ pmin) (hmm : pmin ≤ pmax)
    (h100 : pmax ≤ 100) (hlL : l ≤ L) :
    0 ≤ pyInt (pmin * (l : ℚ) / 100) ∧
      pyInt (pmin * (l : ℚ) / 100) ≤ pyInt (pmax * (l : ℚ) / 100) ∧
      pyInt (pmax * (l : ℚ) / 100) ≤ (l : Int) ∧
      pyInt (pmax * (l : ℚ) / 100) ≤ (L : Int) := by
  have hl0 : (0 : ℚ) ≤ (l : ℚ) := Nat.cast_nonneg l
  have hq0 : (0 : ℚ) ≤ pmin * (l : ℚ) / 100 :=
    div_nonneg (mul_nonneg h0 hl0) (by norm_num)
  have hqq : pmin * (l : ℚ) / 100 ≤ pmax * (l : ℚ) / 100 := by
    apply div_le_div_of_nonneg_right ?_ (by norm_num)
    exact mul_le_mul_of_nonneg_right hmm hl0
  have hqmaxl : pmax * (l : ℚ) / 100 ≤ (l : ℚ) := by
    have h1 : pmax * (l : ℚ) ≤ 100 * (l : ℚ) := mul_le_mul_of_nonneg_right h100 hl0
    have h2 : pmax * (l : ℚ) / 100 ≤ 100 * (l : ℚ) / 100 :=
      div_le_div_of_nonneg_right h1 (by norm_num)
    calc pmax * (l : ℚ) / 100 ≤ 100 * (l : ℚ) / 100 := h2
      _ = (l : ℚ) := by ring
  refine ⟨pyInt_nonneg _ hq0, pyInt_mono _ _ hq0 hqq, ?_, ?_⟩
  · exact pyInt_le_nat _ l (le_trans hq0 hqq) hqmaxl
  · have := pyInt_le_nat _ l (le_trans hq0 hqq) hqmaxl
    have hLl : (l : Int) ≤ (L : Int) := by exact_mod_cast hlL
    omega

theorem selectRow_sum (sp : List (String × Option ℚ)) (l : Nat) (pmin pmax : ℚ)
    (hnd : (sp.map Prod.fst).Nodup) (h0 : 0 ≤ pmin) (hmm : pmin ≤ pmax) (h100 : pmax ≤ 100)
    (hl : l ≤ sp.length) :
    ((selectRow sp l pmin pmax).map Prod.snd).sum = 0 ∨
      ((selectRow sp l pmin pmax).map Prod.snd).sum = 1 := by
  have hlen : (sp.map Prod.fst).length = sp.length := List.length_map _ _
  obtain ⟨hs0, hse, hel, heL⟩ :=
    slice_bounds l (sp.map Prod.fst).length pmin pmax h0 hmm h100 (by omega)
  set ts := sp.map Prod.fst with hts
  set s := pyInt (pmin * (l : ℚ) / 100) with hsdef
  set e := pyInt (pmax * (l : ℚ) / 100) with hedef
  set w := 1 / ((max 1 (e - s) : Int) : ℚ) with hwdef
  have hrow := selectRow_eq_map sp l pmin pmax hnd
  rw [hrow]
  rw [List.map_map]
  have hcomp : (Prod.snd ∘ fun t =>
      (t, if t ∈ pySlice ts s e then w else (0 : ℚ))) =
      (fun t => if t ∈ pySlice ts s e then w else (0 : ℚ)) := by
    funext t; rfl
  rw [hcomp]
  have hdec := pySlice_decomp ts s e hs0 hse heL
  have hsum := congrArg
    (fun u : List String => (u.map (fun t => if t ∈ pySlice ts s e then w else (0 : ℚ))).sum) hdec
  simp only at hsum
  rw [hsum]
  have hnd2 : (ts.take s.toNat ++ pySlice ts s e ++ ts.drop e.toNat).Nodup := by
    rw [← hdec]; exact hnd
  rw [sum_ite_mem_decomp _ _ _ w hnd2]
  have hslen : (pySlice ts s e).length = e.toNat - s.toNat :=
    pySlice_length ts s e hs0 hse heL
  rw [hslen]
  by_cases hcase : e.toNat - s.toNat = 0
  · left
    rw [hcase]
    simp
  · right
    have hst : s.toNat < e.toNat := by omega
    have hlt : s < e := by omega
    have hmax : max 1 (e - s) = e - s := max_eq_right (by omega)
    have hcast : ((e.toNat - s.toNat : Nat) : ℚ) = ((e - s : Int) : ℚ) := by
      have h1 : (s.toNat : Int) = s := Int.toNat_of_nonneg hs0
      have h2 : (e.toNat : Int) = e := Int.toNat_of_nonneg (le_trans hs0 hse)
      have h3 : e.toNat - s.toNat = (e - s).toNat := by omega
      rw [h3]
      have h4 : ((e - s).toNat : Int) = e - s := Int.toNat_of_nonneg (by omega)
      exact_mod_cast congrArg (fun z : Int => (z : ℚ)) h4
    rw [hcast, hwdef, hmax]
    have hne : ((e : ℚ)) - (s : ℚ) ≠ 0 := by
      have h5 : (0 : Int) < e - s := by omega
      have h6 : (0 : ℚ) < ((e - s : Int) : ℚ) := by exact_mod_cast h5
      push_cast at h6
      linarith
    push_cast
    rw [mul_one_div]
    exact div_self hne

/-! Structure of the allocator outputs. -/

theorem zip_map_fst_sublist {α β : Type} (l₁ : List α) (l₂ : List β) :
    ((l₁.zip l₂).map Prod.fst).Sublist l₁ := by
  induction l₁ generalizing l₂ with
  | nil => simp
  | cons a as ih =>
    cases l₂ with
    | nil => simp
    | cons b bs => simpa using (ih bs).cons₂ a

theorem sorted_fst_nodup (pairs : List (String × Option ℚ)) (hnd : (pairs.map Prod.fst).Nodup) :
    ((sortRowDesc pairs).map Prod.fst).Nodup :=
  (((sortRowDesc_perm pairs).map Prod.fst).nodup_iff).mpr hnd

theorem zip_sorted_fst_nodup (p : Panel) (row : List (Option ℚ)) (hnd : p.tickers.Nodup) :
    ((sortRowDesc (p.tickers.zip row)).map Prod.fst).Nodup :=
  sorted_fst_nodup _ ((zip_map_fst_sublist p.tickers row).nodup hnd)

theorem mean_rev_mem_elim (p : Panel) (top bottom : ℚ) (r : Nat × List (String × ℚ))
    (hr : r ∈ compute_weights_last_month_direction p top bottom) :
    ∃ dr ∈ p.rows.enum,
      r = (dr.1, selectRow (sortRowDesc (p.tickers.zip dr.2))
        (sortRowDesc (p.tickers.zip dr.2)).length (min top bottom) (max top bottom)) := by
  simp only [compute_weights_last_month_direction] at hr
  rcases List.mem_map.mp hr with ⟨dr, hdr, rfl⟩
  exact ⟨dr, hdr, rfl⟩

theorem momentum_mem_elim (p : Panel) (top bottom : ℚ) (r : Nat × List (String × ℚ))
    (hr : r ∈ compute_weight_momentum_12_minus_1 p top bottom) :
    ∃ i, i < p.rows.length ∧ ¬ ((signalRow p i).all Option.isNone = true) ∧
      ((sortRowDesc (p.tickers.zip (signalRow p i))).filter (fun x => x.2.isSome)).length ≠ 0 ∧
      r = (i, selectRow (sortRowDesc (p.tickers.zip (signalRow p i)))
            ((sortRowDesc (p.tickers.zip (signalRow p i))).filter (fun x => x.2.isSome)).length
            (min top bottom) (max top bottom)) := by
  simp only [compute_weight_momentum_12_minus_1] at hr
  rcases List.mem_filterMap.mp hr with ⟨i, hi, hfi⟩
  refine ⟨i, List.mem_range.mp hi, ?_⟩
  by_cases h1 : (signalRow p i).all Option.isNone = true
  · rw [if_pos h1] at hfi
    cases hfi
  · rw [if_neg h1] at hfi
    by_cases h2 :
        ((sortRowDesc (p.tickers.zip (signalRow p i))).filter (fun x => x.2.isSome)).length = 0
    · rw [if_pos h2] at hfi
      cases hfi
    · rw [if_neg h2] at hfi
      exact ⟨h1, h2, (Option.some.inj hfi).symm⟩

theorem momentum_skips_allnone (p : Panel) (top bottom : ℚ) (i : Nat)
    (hall : (signalRow p i).all Option.isNone = true) :
    ∀ r ∈ compute_weight_momentum_12_minus_1 p top bottom, r.1 ≠ i := by
  intro r hr heq
  rcases momentum_mem_elim p top bottom r hr with ⟨j, _, hnotall, _, rfl⟩
  simp only at heq
  exact hnotall (heq ▸ hall)

theorem band_normalized (top bottom : ℚ) (htop0 : 0 ≤ top) (htop1 : top ≤ 100)
    (hbot0 : 0 ≤ bottom) (hbot1 : bottom ≤ 100) :
    0 ≤ min top bottom ∧ min top bottom ≤ max top bottom ∧ max top bottom ≤ 100 :=
  ⟨le_min htop0 hbot0, le_trans (min_le_left _ _) (le_max_left _ _), max_le htop1 hbot1⟩

/-! Concrete panels used as test inputs. -/

/-- A 2-ticker, 2-period panel with no missing values. -/
def panelA : Panel :=
  ⟨["A", "B"], [[some (1/100), some (-2/100)], [some (2/100), some 0]]⟩

/-- A 2-ticker panel whose single period has no value for any ticker. -/
def panelAllNone : Panel := ⟨["A", "B"], [[none, none]]⟩

/-- A 2-ticker panel whose single period has a value for A only. -/
def panelOneNone : Panel := ⟨["A", "B"], [[some (1/100), none]]⟩

/-- A 1-ticker panel with 12 periods of zero returns. -/
def panelZeros12 : Panel := ⟨["A"], List.replicate 12 [some 0]⟩

/-- A 2-ticker panel with 12 periods: `A` returns zero, `B` is always
missing. -/
def panelMixed12 : Panel := ⟨["A", "B"], List.replicate 12 [some 0, none]⟩

/-- C7: for every weight row emitted by either allocator with a percentile
band inside `[0, 100]` and distinct tickers, the row sum of weights is
exactly `0` (empty band slice, denominator falling back to `1`) or exactly
`1` (`k ≥ 1` selected tickers at `1/k` each, all others `0`). -/
theorem C7_weight_row_sum_zero_or_one (p : Panel) (top bottom : ℚ)
    (htop0 : 0 ≤ top) (htop1 : top ≤ 100) (hbot0 : 0 ≤ bottom) (hbot1 : bottom ≤ 100)
    (hnd : p.tickers.Nodup) :
    (∀ r ∈ compute_weights_last_month_direction p top bottom,
      (r.2.map Prod.snd).sum = 0 ∨ (r.2.map Prod.snd).sum = 1) ∧
    (∀ r ∈ compute_weight_momentum_12_minus_1 p top bottom,
      (r.2.map Prod.snd).sum = 0 ∨ (r.2.map Prod.snd).sum = 1) := by
  obtain ⟨hp0, hpm, hp1⟩ := band_normalized top bottom htop0 htop1 hbot0 hbot1
  constructor
  · intro r hr
    rcases mean_rev_mem_elim p top bottom r hr with ⟨dr, _, rfl⟩
    exact selectRow_sum _ _ _ _ (zip_sorted_fst_nodup p dr.2 hnd) hp0 hpm hp1 (le_refl _)
  · intro r hr
    rcases momentum_mem_elim p top bottom r hr with ⟨i, _, _, _, rfl⟩
    exact selectRow_sum _ _ _ _ (zip_sorted_fst_nodup p (signalRow p i) hnd) hp0 hpm hp1
      (List.length_filter_le _ _)

/-- Witness for C7: the first weight row of the mean-reversion allocator on
`panelA` with band `(50, 0)` sums to `1`. -/
theorem C7_weight_row_sum_zero_or_one_witness :
    ([("A", (1 : ℚ)), ("B", 0)].map Prod.snd).sum = 0 ∨
      ([("A", (1 : ℚ)), ("B", 0)].map Prod.snd).sum = 1 :=
  (C7_weight_row_sum_zero_or_one panelA 50 0 (by norm_num) (by norm_num) (by norm_num)
    (by norm_num) (by decide)).1 (0, [("A", 1), ("B", 0)]) (by decide)

/-! Structure of the performance frame. -/

theorem dropnaRows_map (ds : List Nat) (g : Nat → ℚ) :
    dropnaRows (ds.map (fun d => (d, some (g d)))) = ds.map (fun d => (d, g d)) := by
  induction ds with
  | nil => rfl
  | cons d rest ih => simp only [List.map_cons, dropnaRows, List.filterMap_cons] at ih ⊢; simp [ih]

theorem plr_column_eq (p : Panel) (W : List (Nat × List (String × ℚ))) :
    portfolio_log_return_column p W =
      (List.range p.rows.length).map (fun d => (d, some (portfolio_log_return_value p W d))) :=
  rfl

theorem dropna_plr_column (p : Panel) (W : List (Nat × List (String × ℚ))) :
    dropnaRows (portfolio_log_return_column p W) =
      (List.range p.rows.length).map (fun d => (d, portfolio_log_return_value p W d)) := by
  rw [plr_column_eq]
  exact dropnaRows_map (List.range p.rows.length) (fun d => portfolio_log_return_value p W d)

theorem length_cumsum : ∀ (xs : List ℚ), (cumsum xs).length = xs.length
  | [] => rfl
  | x :: xs => by simp [cumsum, length_cumsum xs]

theorem cumsum_get? : ∀ (xs : List ℚ) (i : Nat), i < xs.length →
    (cumsum xs).get? i = some ((xs.take (i + 1)).sum)
  | [], i, h => absurd h (by simp)
  | x :: xs, 0, _ => by simp [cumsum]
  | x :: xs, i + 1, h => by
    have ih := cumsum_get? xs i (by simpa using h)
    simp only [cumsum, List.get?_cons_succ, List.get?_map, ih, Option.map_some']
    simp [List.take_cons, List.sum_cons]

theorem compute_index_unfold (p : Panel) (W : List (Nat × List (String × ℚ))) (start : ℚ) :
    compute_index_level_and_returns p W start =
      (((List.range p.rows.length).map (fun d => (d, portfolio_log_return_value p W d))).zip
        (cumsum ((List.range p.rows.length).map (fun d => portfolio_log_return_value p W d)))).map
        (fun x => ⟨x.1.1, x.1.2, x.2⟩) := by
  simp only [compute_index_level_and_returns]
  rw [dropna_plr_column]
  rw [List.map_map]
  rfl

theorem perf_fields (p : Panel) (W : List (Nat × List (String × ℚ))) (start : ℚ) :
    (compute_index_level_and_returns p W start).map PerfRow.date = List.range p.rows.length ∧
    (compute_index_level_and_returns p W start).map PerfRow.portfolio_log_return =
      (List.range p.rows.length).map (fun d => portfolio_log_return_value p W d) ∧
    (compute_index_level_and_returns p W start).map PerfRow.cumulative_log_return =
      cumsum ((List.range p.rows.length).map (fun d => portfolio_log_return_value p W d)) := by
  rw [compute_index_unfold]
  have hlen : ((List.range p.rows.length).map
      (fun d => (d, portfolio_log_return_value p W d))).length =
      (cumsum ((List.range p.rows.length).map
        (fun d => portfolio_log_return_value p W d))).length := by
    rw [length_cumsum]
    simp
  refine ⟨?_, ?_, ?_⟩
  · rw [List.map_map]
    have h1 : (PerfRow.date ∘ fun x : (Nat × ℚ) × ℚ => (⟨x.1.1, x.1.2, x.2⟩ : PerfRow)) =
        (Prod.fst ∘ Prod.fst) := rfl
    rw [h1, ← List.map_map, List.map_fst_zip _ _ (le_of_eq hlen), List.map_map]
    have h2 : (Prod.fst ∘ fun d : Nat => (d, portfolio_log_return_value p W d)) = id := rfl
    rw [h2, List.map_id]
  · rw [List.map_map]
    have h1 : (PerfRow.portfolio_log_return ∘
        fun x : (Nat × ℚ) × ℚ => (⟨x.1.1, x.1.2, x.2⟩ : PerfRow)) =
        (Prod.snd ∘ Prod.fst) := rfl
    rw [h1, ← List.map_map, List.map_fst_zip _ _ (le_of_eq hlen), List.map_map]
    rfl
  · rw [List.map_map]
    have h1 : (PerfRow.cumulative_log_return ∘
        fun x : (Nat × ℚ) × ℚ => (⟨x.1.1, x.1.2, x.2⟩ : PerfRow)) = Prod.snd := rfl
    rw [h1, List.map_snd_zip _ _ (ge_of_eq hlen)]

theorem perf_length (p : Panel) (W : List (Nat × List (String × ℚ))) (start : ℚ) :
    (compute_index_level_and_returns p W start).length = p.rows.length := by
  have h := congrArg List.length (perf_fields p W start).1
  simpa using h

theorem perf_get_fields (p : Panel) (W : List (Nat × List (String × ℚ))) (start : ℚ)
    (d : Nat) (hd : d < p.rows.length) :
    ∃ row : PerfRow, (compute_index_level_and_returns p W start).get? d = some row ∧
      row.date = d ∧
      row.portfolio_log_return = portfolio_log_return_value p W d ∧
      row.cumulative_log_return =
        (((List.range p.rows.length).map (fun x => portfolio_log_return_value p W x)).take
          (d + 1)).sum := by
  obtain ⟨hdate, hplr, hclr⟩ := perf_fields p W start
  have hlen : (compute_index_level_and_returns p W start).length = p.rows.length :=
    perf_length p W start
  have hd2 : d < (compute_index_level_and_returns p W start).length := by omega
  refine ⟨(compute_index_level_and_returns p W start).get ⟨d, hd2⟩,
    List.get?_eq_get hd2, ?_, ?_, ?_⟩
  · have h1 := congrArg (fun l => l.get? d) hdate
    simp only [List.get?_map, List.get?_eq_get hd2, Option.map_some',
      List.get?_range hd] at h1
    exact Option.some.inj h1
  · have h1 := congrArg (fun l => l.get? d) hplr
    simp only [List.get?_map, List.get?_eq_get hd2, Option.map_some',
      List.get?_range hd] at h1
    exact Option.some.inj h1
  · have h1 := congrArg (fun l => l.get? d) hclr
    simp only at h1
    have hxs : d < ((List.range p.rows.length).map
        (fun x => portfolio_log_return_value p W x)).length := by
      simpa using hd
    rw [cumsum_get? _ d hxs] at h1
    simp only [List.get?_map, List.get?_eq_get hd2, Option.map_some'] at h1
    exact Option.some.inj h1

theorem sum_filterMap {α : Type} (h : α → Option ℚ) :
    ∀ (xs : List α), (xs.filterMap h).sum = (xs.map (fun a => (h a).getD 0)).sum
  | [] => rfl
  | a :: as => by
    cases hh : h a <;>
      simp [List.filterMap_cons, hh, sum_filterMap h as]

theorem findIdx?_date (W : List (Nat × List (String × ℚ))) (j : Nat) (hj : j < W.length)
    (hnd : (W.map Prod.fst).Nodup) :
    W.findIdx? (fun r => r.1 = (W.get ⟨j, hj⟩).1) = some j := by
  apply List.findIdx?_eq_some_iff_getElem.mpr
  refine ⟨hj, by simp, ?_⟩
  intro k hk
  have hklen : k < W.length := by omega
  have hne : (W.get ⟨k, hklen⟩).1 ≠ (W.get ⟨j, hj⟩).1 := by
    intro hEq
    have hmaplen : W.length = (W.map Prod.fst).length := (List.length_map _ _).symm
    have h1 : (W.map Prod.fst).get ⟨k, by omega⟩ = (W.map Prod.fst).get ⟨j, by omega⟩ := by
      rw [List.get_map, List.get_map]
      exact hEq
    have h2 := (List.Nodup.get_inj_iff hnd).mp h1
    simp only [Fin.mk.injEq] at h2
    omega
  simpa using hne

theorem effectiveWeightRow_at_next (W : List (Nat × List (String × ℚ))) (i : Nat)
    (hi : i + 1 < W.length) (hnd : (W.map Prod.fst).Nodup) :
    effectiveWeightRow W ((W.get ⟨i + 1, hi⟩).1) =
      some (W.get ⟨i, by omega⟩).2 := by
  unfold effectiveWeightRow
  rw [findIdx?_date W (i + 1) hi hnd]
  show (W.get? i).map Prod.snd = some (W.get ⟨i, by omega⟩).2
  rw [List.get?_eq_get (show i < W.length by omega)]
  rfl

theorem weightedCells_some (tickers : List String) (row : List (Option ℚ))
    (w : List (String × ℚ)) :
    weightedCells tickers row (some w) = (tickers.zip row).map (fun tc =>
      match tc.2, List.lookup tc.1 w with
      | some r, some wv => some (wv * r)
      | _, _ => none) := rfl

theorem plr_value_at_weight_date (p : Panel) (W : List (Nat × List (String × ℚ)))
    (i : Nat) (hi : i + 1 < W.length) (hnd : (W.map Prod.fst).Nodup) :
    portfolio_log_return_value p W ((W.get ⟨i + 1, hi⟩).1) =
      ((p.tickers.zip ((p.rows.get? ((W.get ⟨i + 1, hi⟩).1)).getD [])).map (fun tc =>
        match tc.2, List.lookup tc.1 ((W.get ⟨i, by omega⟩).2) with
        | some r, some wv => wv * r
        | _, _ => 0)).sum := by
  unfold portfolio_log_return_value
  rw [effectiveWeightRow_at_next W i hi hnd, weightedCells_some, List.filterMap_map,
    sum_filterMap]
  refine congrArg List.sum (List.map_congr_left (fun tc _ => ?_))
  rcases h2 : tc.2 with _ | r <;>
    rcases h3 : List.lookup tc.1 ((W.get ⟨i, by omega⟩).2) with _ | wv <;>
      simp only [h2, h3, Function.comp_apply, id_eq, Option.getD_none, Option.getD_some]

/-- C6: computing weights with band `(a, b)` produces exactly the same weight
table, period by period and ticker by ticker, as computing with band
`(b, a)`, for both allocators — each normalizes the band internally to
`(min, max)` before computing slice indices. -/
theorem C6_band_order_invariance (p : Panel) (a b : ℚ) :
    compute_weights_last_month_direction p a b = compute_weights_last_month_direction p b a ∧
    compute_weight_momentum_12_minus_1 p a b = compute_weight_momentum_12_minus_1 p b a := by
  constructor
  · simp only [compute_weights_last_month_direction]
    rw [min_comm a b, max_comm a b]
  · simp only [compute_weight_momentum_12_minus_1]
    rw [min_comm a b, max_comm a b]

/-- C8: in every Performance Series produced with `start_index_value = 100`,
the `cumulative_log_return` at each period is the running sum of the
`portfolio_log_return` column up to that period, and the `index_level`
column at that period equals `100 * exp(cumulative_log_return)`. -/
theorem C8_index_level_roundtrip (p : Panel) (W : List (Nat × List (String × ℚ)))
    (i : Nat) (hi : i < (compute_index_level_and_returns p W 100).length) :
    ∃ row : PerfRow, (compute_index_level_and_returns p W 100).get? i = some row ∧
      row.cumulative_log_return =
        (((compute_index_level_and_returns p W 100).take (i + 1)).map
          PerfRow.portfolio_log_return).sum ∧
      (index_level_column 100 (compute_index_level_and_returns p W 100)).get? i =
        some (((100 : ℚ) : ℝ) * Real.exp row.cumulative_log_return) := by
  have hlen := perf_length p W 100
  have hd : i < p.rows.length := by omega
  obtain ⟨row, hget, hdate, hplr, hclr⟩ := perf_get_fields p W 100 i hd
  obtain ⟨_, hplrcol, _⟩ := perf_fields p W 100
  refine ⟨row, hget, ?_, ?_⟩
  · rw [hclr, ← hplrcol, List.map_take]
  · unfold index_level_column
    rw [List.get?_map, hget, Option.map_some']

/-- Witness for C8 at `i = 1` on `panelA` with the mean-reversion weights. -/
theorem C8_index_level_roundtrip_witness :
    ∃ row : PerfRow,
      (compute_index_level_and_returns panelA
        (compute_weights_last_month_direction panelA 50 0) 100).get? 1 = some row ∧
      row.cumulative_log_return =
        (((compute_index_level_and_returns panelA
          (compute_weights_last_month_direction panelA 50 0) 100).take 2).map
          PerfRow.portfolio_log_return).sum ∧
      (index_level_column 100 (compute_index_level_and_returns panelA
        (compute_weights_last_month_direction panelA 50 0) 100)).get? 1 =
        some (((100 : ℚ) : ℝ) * Real.exp row.cumulative_log_return) :=
  C8_index_level_roundtrip panelA (compute_weights_last_month_direction panelA 50 0) 1
    (by decide)

/-- C1: the portfolio log return that `compute_index_level_and_returns`
produces at the date of the `(i+1)`-th weight row is the cross-sectional sum
over tickers of the `i`-th weight row (the weight computed one weight-table
period earlier) times the panel return at that date (missing cells
contribute nothing), and the `i`-th weight date is strictly earlier — the
weight table is shifted forward by exactly one row before multiplication. -/
theorem C1_portfolio_return_uses_lagged_weights (p : Panel)
    (W : List (Nat × List (String × ℚ)))
    (hchain : List.Chain' (· < ·) (W.map Prod.fst))
    (hbound : ∀ d ∈ W.map Prod.fst, d < p.rows.length)
    (i : Nat) (hi : i + 1 < W.length) :
    ∃ row : PerfRow,
      (compute_index_level_and_returns p W 100).get? ((W.get ⟨i + 1, hi⟩).1) = some row ∧
      row.portfolio_log_return =
        ((p.tickers.zip ((p.rows.get? ((W.get ⟨i + 1, hi⟩).1)).getD [])).map (fun tc =>
          match tc.2, List.lookup tc.1 ((W.get ⟨i, by omega⟩).2) with
          | some r, some wv => wv * r
          | _, _ => 0)).sum ∧
      (W.get ⟨i, by omega⟩).1 < (W.get ⟨i + 1, hi⟩).1 := by
  have hpw : (W.map Prod.fst).Pairwise (· < ·) := List.chain'_iff_pairwise.mp hchain
  have hnd : (W.map Prod.fst).Nodup := hpw.imp (fun h => ne_of_lt h)
  have hmem : (W.get ⟨i + 1, hi⟩).1 ∈ W.map Prod.fst :=
    List.mem_map_of_mem Prod.fst (W.get_mem _ _)
  have hd : (W.get ⟨i + 1, hi⟩).1 < p.rows.length := hbound _ hmem
  obtain ⟨row, hget, hdate, hplr, hclr⟩ := perf_get_fields p W 100 _ hd
  refine ⟨row, hget, ?_, ?_⟩
  · rw [hplr, plr_value_at_weight_date p W i hi hnd]
  · have hmaplen : (W.map Prod.fst).length = W.length := List.length_map _ _
    have horder := List.pairwise_iff_get.mp hpw ⟨i, by omega⟩ ⟨i + 1, by omega⟩
      (by simp)
    simpa using horder

/-- Witness for C1 at `i = 0` on `panelA` with the mean-reversion weights:
the portfolio return of period 1 is the period-0 weight row times the
period-1 returns, and period 0 is strictly earlier than period 1. -/
theorem C1_portfolio_return_uses_lagged_weights_witness :
    ∃ row : PerfRow,
      (compute_index_level_and_returns panelA
        (compute_weights_last_month_direction panelA 50 0) 100).get? 1 = some row ∧
      row.portfolio_log_return =
        ((panelA.tickers.zip ((panelA.rows.get? 1).getD [])).map (fun tc =>
          match tc.2, List.lookup tc.1 [("A", (1 : ℚ)), ("B", 0)] with
          | some r, some wv => wv * r
          | _, _ => 0)).sum ∧
      (0 : Nat) < 1 := by
  have hW : (compute_weights_last_month_direction panelA 50 0).map Prod.fst = [0, 1] := by
    decide
  refine C1_portfolio_return_uses_lagged_weights panelA
    (compute_weights_last_month_direction panelA 50 0) ?_ (by decide) 0 (by decide)
  rw [hW]
  exact List.chain'_cons.mpr ⟨by omega, List.chain'_singleton 1⟩

/-- C2 (evaluation of the code at the failing input): on `panelA` with the
mean-reversion weights for band `(50, 0)`, the emitted Performance Series
still contains the first panel period (date `0`, which has no lagged
weight) as a row with `portfolio_log_return = 0`: pandas `sum(axis=1)`
turns the all-`NaN` first shifted row into `0.0` before `dropna()` runs, so
the leading period is not dropped. -/
theorem C2_code_evaluation :
    (compute_index_level_and_returns panelA
      (compute_weights_last_month_direction panelA 50 0) 100).map PerfRow.date = [0, 1] ∧
    (compute_index_level_and_returns panelA
      (compute_weights_last_month_direction panelA 50 0) 100).get? 0 =
      some ⟨0, 0, 0⟩ := by
  decide

/-- C9 counterexample: on a panel whose single period is entirely "no
value", the mean-reversion allocator does not skip the period — it emits a
weight row for it, and with band `(100, 0)` even assigns the two no-value
tickers weight `1/2` each. -/
theorem C9_counterexample_mean_rev_emits_row_for_all_none_period :
    compute_weights_last_month_direction panelAllNone 100 0 =
      [(0, [("A", (1/2 : ℚ)), ("B", 1/2)])] := by
  decide

/-- C9 (amended): the momentum allocator skips outright every period whose
signal row is entirely "no value": no emitted weight row carries that date,
so the period contributes nothing downstream.  The mean-reversion allocator
does not skip such periods (see the counterexample). -/
theorem C9_amended_momentum_skips_all_none_periods (p : Panel) (top bottom : ℚ) (i : Nat)
    (hall : (signalRow p i).all Option.isNone = true) :
    ∀ r ∈ compute_weight_momentum_12_minus_1 p top bottom, r.1 ≠ i :=
  momentum_skips_allnone p top bottom i hall

/-- Witness for C9 (amended) on `panelZeros12`: period 0 has an all-none
signal row, and the only emitted weight row (date 11) indeed has a
different date. -/
theorem C9_amended_momentum_skips_all_none_periods_witness :
    ((11 : Nat), [("A", (1 : ℚ))]).1 ≠ 0 :=
  C9_amended_momentum_skips_all_none_periods panelZeros12 100 0 0 (by decide)
    (11, [("A", 1)]) (by decide)

/-- A date carried by no weight row has no effective (lagged) weight row. -/
theorem effectiveWeightRow_of_not_mem (W : List (Nat × List (String × ℚ))) (d : Nat)
    (h : ∀ r ∈ W, r.1 ≠ d) : effectiveWeightRow W d = none := by
  unfold effectiveWeightRow
  rw [List.findIdx?_eq_none_iff.mpr (by intro r hr; simpa using h r hr)]

/-- A period with no effective weight row sums to `0.0` under the pandas
`sum(axis=1)` semantics (every product cell is `NaN` and is skipped). -/
theorem plr_value_of_no_weight (p : Panel) (W : List (Nat × List (String × ℚ)))
    (d : Nat) (h : effectiveWeightRow W d = none) :
    portfolio_log_return_value p W d = 0 := by
  unfold portfolio_log_return_value
  rw [h]
  have hcells : weightedCells p.tickers ((p.rows.get? d).getD []) none =
      (p.tickers.zip ((p.rows.get? d).getD [])).map (fun _ => none) := rfl
  rw [hcells, List.filterMap_map, Function.id_comp]
  have hnil : ∀ (l : List (String × Option ℚ)),
      List.filterMap (fun _ => (none : Option ℚ)) l = [] := by
    intro l
    induction l with
    | nil => rfl
    | cons a as ih => simp [List.filterMap_cons, ih]
  rw [hnil]
  rfl

/-- C5 counterexample: on a 12-period panel of zeros, period index 11 has
only 11 prior periods of history — fewer than 12 — yet its 12-minus-1
signal is the value `0`, not "no value", and the period is included in the
momentum allocator's output rather than excluded.  Moreover the no-signal
leading periods are not excluded from all downstream output either: the
Performance Series contains every panel date `0..11`, with the no-signal
period 5 present as a row with `portfolio_log_return = 0`. -/
theorem C5_counterexample_period_11_has_signal :
    momentum_signal panelZeros12 11 0 = some 0 ∧
    (compute_weight_momentum_12_minus_1 panelZeros12 100 0).map Prod.fst = [11] ∧
    (compute_index_level_and_returns panelZeros12
      (compute_weight_momentum_12_minus_1 panelZeros12 100 0) 100).map PerfRow.date =
      [0, 1, 2, 3, 4, 5, 6, 7, 8, 9, 10, 11] ∧
    (compute_index_level_and_returns panelZeros12
      (compute_weight_momentum_12_minus_1 panelZeros12 100 0) 100).get? 5 =
      some ⟨5, 0, 0⟩ := by
  decide

/-- C5 (amended): the momentum signal is `R12 - R1` where `R12` is the
trailing 12-period rolling sum of the panel (current period included) and
`R1` the trailing 1-period return; every period with fewer than 12 periods
of panel history including the current one (the first 11 periods) has a
"no value" signal for every ticker, and no such period receives a weight
row (the first period with a signal is index 11, which has only 11
strictly prior periods).  These leading periods are excluded only from the
weight table, not from all downstream output: the Performance Series still
carries each of them as a row with `portfolio_log_return = 0`, because
pandas `sum(axis=1)` turns their all-`NaN` weighted rows into `0.0` before
`dropna()` (the slip recorded under C2). -/
theorem C5_amended_signal_R12_minus_R1 (p : Panel) :
    (∀ i j, i + 1 < 12 → momentum_signal p i j = none) ∧
    (∀ i j, 12 ≤ i + 1 →
      (∀ t ∈ List.range 12, ((getCell p (i + 1 - 12 + t) j).isSome = true)) →
      momentum_signal p i j =
        some ((((List.range 12).map (fun t => getCell p (i + 1 - 12 + t) j)).filterMap
          id).sum - (getCell p i j).getD 0)) ∧
    (∀ top bottom : ℚ, ∀ r ∈ compute_weight_momentum_12_minus_1 p top bottom,
      12 ≤ r.1 + 1) ∧
    (∀ top bottom : ℚ, ∀ i, i + 1 < 12 → i < p.rows.length →
      ∃ row : PerfRow, (compute_index_level_and_returns p
        (compute_weight_momentum_12_minus_1 p top bottom) 100).get? i = some row ∧
        row.portfolio_log_return = 0) := by
  have h1 : ∀ i j, i + 1 < 12 → momentum_signal p i j = none := by
    intro i j h
    have h12 : ¬ (12 ≤ i + 1) := by omega
    have hr : rolling_sum p 12 i j = none := by
      unfold rolling_sum
      rw [if_neg h12]
    unfold momentum_signal
    rw [hr]
  have h3 : ∀ top bottom : ℚ, ∀ r ∈ compute_weight_momentum_12_minus_1 p top bottom,
      12 ≤ r.1 + 1 := by
    intro top bottom r hr
    rcases momentum_mem_elim p top bottom r hr with ⟨i, hi, hnotall, _, rfl⟩
    simp only
    by_contra hcon
    apply hnotall
    apply List.all_eq_true.mpr
    intro x hx
    rcases List.mem_map.mp hx with ⟨jj, hjj, rfl⟩
    rw [h1 i jj (by omega)]
    rfl
  refine ⟨h1, ?_, h3, ?_⟩
  · intro i j h12 hdef
    have hall12 : ((List.range 12).map
        (fun t => getCell p (i + 1 - 12 + t) j)).all Option.isSome = true := by
      apply List.all_eq_true.mpr
      intro x hx
      rcases List.mem_map.mp hx with ⟨t, ht, rfl⟩
      exact hdef t ht
    have hr12 : rolling_sum p 12 i j =
        some ((((List.range 12).map (fun t => getCell p (i + 1 - 12 + t) j)).filterMap
          id).sum) := by
      unfold rolling_sum
      rw [if_pos h12, if_pos hall12]
    have hcelli : (getCell p i j).isSome = true := by
      have h11 : i + 1 - 12 + 11 = i := by omega
      have := hdef 11 (by simp)
      rwa [h11] at this
    have hr1 : rolling_sum p 1 i j = some ((getCell p i j).getD 0) := by
      unfold rolling_sum
      rw [if_pos (by omega : 1 ≤ i + 1)]
      have hone : List.range 1 = [0] := rfl
      have hidx : i + 1 - 1 + 0 = i := by omega
      rw [hone, List.map_cons, List.map_nil, hidx]
      rcases hc : getCell p i j with _ | v
      · rw [hc] at hcelli
        simp at hcelli
      · simp [List.filterMap_cons]
    unfold momentum_signal
    rw [hr12, hr1]
  · intro top bottom i hi12 hin
    have hnorow : effectiveWeightRow
        (compute_weight_momentum_12_minus_1 p top bottom) i = none := by
      apply effectiveWeightRow_of_not_mem
      intro r hr
      have := h3 top bottom r hr
      omega
    obtain ⟨row, hget, hdate, hplr, hclr⟩ :=
      perf_get_fields p (compute_weight_momentum_12_minus_1 p top bottom) 100 i hin
    exact ⟨row, hget, by rw [hplr, plr_value_of_no_weight p _ i hnorow]⟩

/-- Witness for C5 (amended) on `panelZeros12`: period 5 has a "no value"
signal, period 11 has the value `R12 - R1`, the only emitted weight row has
date 11 with at least 12 periods of trailing history, and the no-signal
period 5 still reaches the Performance Series as a zero-return row. -/
theorem C5_amended_signal_R12_minus_R1_witness :
    momentum_signal panelZeros12 5 0 = none ∧
    momentum_signal panelZeros12 11 0 =
      some ((((List.range 12).map (fun t => getCell panelZeros12 (11 + 1 - 12 + t) 0)).filterMap
        id).sum - (getCell panelZeros12 11 0).getD 0) ∧
    12 ≤ ((11 : Nat), [("A", (1 : ℚ))]).1 + 1 ∧
    (∃ row : PerfRow, (compute_index_level_and_returns panelZeros12
      (compute_weight_momentum_12_minus_1 panelZeros12 100 0) 100).get? 5 = some row ∧
      row.portfolio_log_return = 0) :=
  ⟨(C5_amended_signal_R12_minus_R1 panelZeros12).1 5 0 (by omega),
    (C5_amended_signal_R12_minus_R1 panelZeros12).2.1 11 0 (by omega) (by decide),
    (C5_amended_signal_R12_minus_R1 panelZeros12).2.2.1 100 0 (11, [("A", 1)]) (by decide),
    (C5_amended_signal_R12_minus_R1 panelZeros12).2.2.2 100 0 5 (by omega) (by decide)⟩

theorem selectRow_zero_of_none_signal (pairs : List (String × Option ℚ))
    (pmin pmax : ℚ) (h0 : 0 ≤ pmin) (hmm : pmin ≤ pmax) (h100 : pmax ≤ 100)
    (hnd : (pairs.map Prod.fst).Nodup) (t : String)
    (ht : (t, (none : Option ℚ)) ∈ pairs) :
    List.lookup t (selectRow (sortRowDesc pairs)
      ((sortRowDesc pairs).filter (fun x => x.2.isSome)).length pmin pmax) = some 0 := by
  have hndsorted : ((sortRowDesc pairs).map Prod.fst).Nodup := sorted_fst_nodup pairs hnd
  have hsplit : sortRowDesc pairs =
      ((sortDesc (pairs.filterMap (fun q => q.2.map (fun v => (q.1, v))))).map
        (fun q => (q.1, some q.2))) ++ pairs.filter (fun q => q.2.isNone) := rfl
  have hlP : ((sortRowDesc pairs).filter (fun x => x.2.isSome)).length =
      ((sortDesc (pairs.filterMap (fun q => q.2.map (fun v => (q.1, v))))).map
        (fun q => (q.1, some q.2))).length := by
    rw [filter_isSome_sortRowDesc pairs]
  have htsdef : (sortRowDesc pairs).map Prod.fst =
      ((sortDesc (pairs.filterMap (fun q => q.2.map (fun v => (q.1, v))))).map
        (fun q => (q.1, some q.2))).map Prod.fst ++
      (pairs.filter (fun q => q.2.isNone)).map Prod.fst := by
    conv_lhs => rw [hsplit]
    rw [List.map_append]
  have hlle : ((sortRowDesc pairs).filter (fun x => x.2.isSome)).length ≤
      ((sortRowDesc pairs).map Prod.fst).length := by
    rw [List.length_map]
    exact List.length_filter_le _ _
  obtain ⟨hs0, hse, hel, heL⟩ := slice_bounds
    ((sortRowDesc pairs).filter (fun x => x.2.isSome)).length
    ((sortRowDesc pairs).map Prod.fst).length pmin pmax h0 hmm h100 hlle
  rw [selectRow_eq_map _ _ pmin pmax hndsorted]
  have htmem : t ∈ (sortRowDesc pairs).map Prod.fst := by
    have h1 : t ∈ pairs.map Prod.fst := List.mem_map_of_mem Prod.fst ht
    exact ((sortRowDesc_perm pairs).map Prod.fst).mem_iff.mpr h1
  rw [lookup_map_of_mem _ ((sortRowDesc pairs).map Prod.fst) t htmem]
  have htB : t ∈ (pairs.filter (fun q => q.2.isNone)).map Prod.fst :=
    List.mem_map_of_mem Prod.fst (List.mem_filter.mpr ⟨ht, rfl⟩)
  have hdisj := (List.nodup_append.mp (htsdef ▸ hndsorted)).2.2
  have hnotsel : t ∉ pySlice ((sortRowDesc pairs).map Prod.fst)
      (pyInt (pmin * (((sortRowDesc pairs).filter (fun x => x.2.isSome)).length : ℚ) / 100))
      (pyInt (pmax * (((sortRowDesc pairs).filter (fun x => x.2.isSome)).length : ℚ) / 100)) := by
    intro htsel
    rw [pySlice_eq_drop_take _ _ _ hs0 (le_trans hs0 hse) (le_trans hse heL) heL] at htsel
    have h1 : t ∈ ((sortRowDesc pairs).map Prod.fst).take
        (pyInt (pmax * (((sortRowDesc pairs).filter
          (fun x => x.2.isSome)).length : ℚ) / 100)).toNat :=
      List.drop_subset _ _ htsel
    have h2 : ((sortRowDesc pairs).map Prod.fst).take
        (pyInt (pmax * (((sortRowDesc pairs).filter
          (fun x => x.2.isSome)).length : ℚ) / 100)).toNat =
        (((sortDesc (pairs.filterMap (fun q => q.2.map (fun v => (q.1, v))))).map
          (fun q => (q.1, some q.2))).map Prod.fst).take
          (pyInt (pmax * (((sortRowDesc pairs).filter
            (fun x => x.2.isSome)).length : ℚ) / 100)).toNat := by
      rw [htsdef]
      apply List.take_append_of_le_length
      rw [List.length_map, ← hlP]
      omega
    rw [h2] at h1
    exact hdisj (List.take_subset _ _ h1) htB
  rw [if_neg hnotsel]

/-- C4 counterexample: on `panelOneNone` (ticker `B` has "no value" in the
only period) the mean-reversion allocator with band `(100, 0)` counts `B`
toward the eligible population (`l = 2`), emits `B` in the weight row, and
even assigns it the nonzero weight `1/2` — the no-value ticker is not
excluded. -/
theorem C4_counterexample_no_value_ticker_weighted :
    compute_weights_last_month_direction panelOneNone 100 0 =
      [(0, [("A", (1/2 : ℚ)), ("B", 1/2)])] := by
  decide

/-- C4 (amended): in the momentum allocator, a ticker whose signal is
"no value" in an emitted period never receives a nonzero weight — it is
written into that period's row with weight exactly `0` (it is present in
the row, not absent), because only the first `l` sorted positions (the
tickers with a signal) can fall inside the slice.  The mean-reversion
allocator does not exclude no-value tickers at all (see the
counterexample). -/
theorem C4_amended_momentum_no_value_zero_weight (p : Panel) (top bottom : ℚ)
    (htop0 : 0 ≤ top) (htop1 : top ≤ 100) (hbot0 : 0 ≤ bottom) (hbot1 : bottom ≤ 100)
    (hnd : p.tickers.Nodup) (i : Nat) (r : List (String × ℚ))
    (hr : (i, r) ∈ compute_weight_momentum_12_minus_1 p top bottom)
    (j : Nat) (hj : j < p.tickers.length)
    (hnone : momentum_signal p i j = none) :
    List.lookup (p.tickers.get ⟨j, hj⟩) r = some 0 := by
  obtain ⟨hp0, hpm, hp1⟩ := band_normalized top bottom htop0 htop1 hbot0 hbot1
  rcases momentum_mem_elim p top bottom (i, r) hr with ⟨i2, hi2, _, _, heq⟩
  have hii : i = i2 := congrArg Prod.fst heq
  subst hii
  have hrr : r = selectRow (sortRowDesc (p.tickers.zip (signalRow p i)))
      ((sortRowDesc (p.tickers.zip (signalRow p i))).filter (fun x => x.2.isSome)).length
      (min top bottom) (max top bottom) := congrArg Prod.snd heq
  subst hrr
  have hsiglen : (signalRow p i).length = p.tickers.length := by simp [signalRow]
  have hjz : j < (p.tickers.zip (signalRow p i)).length := by
    rw [List.length_zip, hsiglen, Nat.min_self]
    exact hj
  have hpairget : (p.tickers.zip (signalRow p i)).get ⟨j, hjz⟩ =
      (p.tickers.get ⟨j, hj⟩, momentum_signal p i j) := by
    rw [List.get_eq_getElem, List.getElem_zip, Prod.mk.injEq]
    refine ⟨rfl, ?_⟩
    show (signalRow p i)[j] = momentum_signal p i j
    unfold signalRow
    rw [List.getElem_map, List.getElem_range]
  have htpair : (p.tickers.get ⟨j, hj⟩, (none : Option ℚ)) ∈
      p.tickers.zip (signalRow p i) := by
    have hm := List.get_mem (p.tickers.zip (signalRow p i)) j hjz
    rw [hpairget, hnone] at hm
    exact hm
  exact selectRow_zero_of_none_signal (p.tickers.zip (signalRow p i))
    (min top bottom) (max top bottom) hp0 hpm hp1
    ((zip_map_fst_sublist _ _).nodup hnd) _ htpair

/-- Witness for C4 (amended) on `panelMixed12`: in the emitted period 11,
ticker `B` has a "no value" signal and carries weight exactly `0` in the
row. -/
theorem C4_amended_momentum_no_value_zero_weight_witness :
    List.lookup "B" [("A", (1 : ℚ)), ("B", 0)] = some 0 :=
  C4_amended_momentum_no_value_zero_weight panelMixed12 100 0 (by norm_num) (by norm_num)
    (by norm_num) (by norm_num) (by decide) 11 [("A", 1), ("B", 0)] (by decide) 1
    (by decide) (by decide)

/-- C10: `construct_performances_for_percentiles` discards the prior
contents of the result store (the output does not depend on `priorStore`),
and — provided the labels of the requested pairs are distinct, as any real
scenario list makes them — the resulting store maps, in the caller's input
order, the label of each unnormalized input pair `(top, bottom)` to the
Performance Series computed for that band with `start_index = 100`.  In
this pure embedding each stored series is its own value, so no aliasing
between entries is possible. -/
theorem C10_scenario_store (p : Panel) (percentiles : List (ℚ × ℚ))
    (priorStore : List (String × List PerfRow))
    (hnd : (percentiles.map (fun pr => mkLabel pr.1 pr.2)).Nodup) :
    construct_performances_for_percentiles p percentiles priorStore =
      percentiles.map (fun pr => (mkLabel pr.1 pr.2,
        compute_index_level_and_returns p
          (compute_weight_momentum_12_minus_1 p pr.1 pr.2) 100)) ∧
    (construct_performances_for_percentiles p percentiles priorStore).map Prod.fst =
      percentiles.map (fun pr => mkLabel pr.1 pr.2) := by
  have hmain : construct_performances_for_percentiles p percentiles priorStore =
      percentiles.map (fun pr => (mkLabel pr.1 pr.2,
        compute_index_level_and_returns p
          (compute_weight_momentum_12_minus_1 p pr.1 pr.2) 100)) := by
    simp only [construct_performances_for_percentiles]
    rw [foldl_pyDictSet_fresh (fun pr : ℚ × ℚ => mkLabel pr.1 pr.2)
      (fun pr : ℚ × ℚ => compute_index_level_and_returns p
        (compute_weight_momentum_12_minus_1 p pr.1 pr.2) 100)
      percentiles [] hnd (by simp)]
    simp
  refine ⟨hmain, ?_⟩
  rw [hmain, List.map_map]
  rfl

/-- Witness for C10: two bands, a nonempty prior store that is discarded,
and the keys of the result reflect the input pairs in order. -/
theorem C10_scenario_store_witness :
    construct_performances_for_percentiles panelA [(10, 0), (20, 0)]
        [("stale", [⟨0, 0, 0⟩])] =
      [(10, 0), (20, 0)].map (fun pr : ℚ × ℚ => (mkLabel pr.1 pr.2,
        compute_index_level_and_returns panelA
          (compute_weight_momentum_12_minus_1 panelA pr.1 pr.2) 100)) ∧
    (construct_performances_for_percentiles panelA [(10, 0), (20, 0)]
        [("stale", [⟨0, 0, 0⟩])]).map Prod.fst =
      [(10, 0), (20, 0)].map (fun pr : ℚ × ℚ => mkLabel pr.1 pr.2) :=
  C10_scenario_store panelA [(10, 0), (20, 0)] [("stale", [⟨0, 0, 0⟩])] (by decide)

end Momentum
